import Mathlib

/-!
Shallow embedding of `secure_mail/backends.py` (django-secure-mail).

The module-level GnuPG engine (`gpg`) is modelled as an explicit function
parameter.  A call to `gpg.encrypt(text, addr, **encrypt_kwargs)` returns an
object with an `ok` flag, a text payload (what `smart_text(result)` yields)
and a `status` string; `gpg.sign` likewise.  Python exceptions are modelled
with `Except`; the side effect of calling the engine is tracked as a list of
(plaintext, address) call records, so "no CryptoEngine call occurs" is
statable.
-/

namespace SecureMail

/-- Result object of `gpg.encrypt(text, addr, ...)`: `ok` flag, the text that
`smart_text(result)` produces, and the engine `status` string. -/
structure EncResult where
  ok : Bool
  text : String
  status : String
deriving DecidableEq

/-- Result object of `gpg.sign(text, ...)`: the engine `status` string and the
text that `smart_text(result)` produces. -/
structure SignResult where
  status : String
  text : String
deriving DecidableEq

/-- A CryptoEngine encrypt call record: (plaintext, recipient address). -/
abbrev Call := String × String

/-- Python exceptions that can escape the embedded functions.
`encryptionFailed` is `EncryptionFailedError` carrying the recipient address
and the engine status; `signingFailed` is `SigningFailedError` (present in the
taxonomy of `utils.py` but, as proved below, never actually raised by `sign`);
`nameError`/`unboundLocal` model Python `NameError`/`UnboundLocalError` on the
named variable; `handlerAbort` models a FailurePolicy hook that raises;
`ioError` models a failed `open()` of a filename attachment. -/
inductive PyErr where
  | encryptionFailed (addr status : String)
  | signingFailed (status : String)
  | nameError (name : String)
  | unboundLocal (name : String)
  | handlerAbort (hook : String)
  | ioError (path : String)
deriving DecidableEq

/-- Computation that may raise a `PyErr` and records the CryptoEngine encrypt
calls it makes (calls made before a raise are kept). -/
structure EM (α : Type) where
  res : Except PyErr α
  calls : List Call

instance : Monad EM where
  pure a := ⟨.ok a, []⟩
  bind x f :=
    match x.res with
    | .ok a => ⟨(f a).res, x.calls ++ (f a).calls⟩
    | .error e => ⟨.error e, x.calls⟩

/-- Raise a Python exception. -/
def EM.raise (e : PyErr) : EM α := ⟨.error e, []⟩

/-- Model of `try: ... except EncryptionFailedError as e: ...`: only
`EncryptionFailedError` is caught, every other exception propagates. -/
def catchEnc (x : EM α) (h : String → String → EM α) : EM α :=
  match x.res with
  | .error (.encryptionFailed a s) => ⟨(h a s).res, x.calls ++ (h a s).calls⟩
  | _ => x

/-- An attachment is either a bare filename (the file is opened and read) or a
`(filename, content, mimetype)` triple; filename and mimetype may be `None`. -/
inductive Attachment where
  | file (path : String)
  | tuple (filename : Option String) (content : String) (mimetype : Option String)
deriving DecidableEq

/-- Email message, mirroring the fields `copy_message` passes to
`EmailMultiAlternatives`.  An alternative is a `(content, mimetype)` pair.
`do_not_encrypt_this_message` models the attribute read via
`getattr(msg, 'do_not_encrypt_this_message', False)`. -/
structure Msg where
  «to» : List String
  cc : List String
  bcc : List String
  reply_to : List String
  from_email : String
  subject : String
  body : String
  alternatives : List (String × Option String)
  attachments : List Attachment
  extra_headers : List (String × String)
  connection : Option String
  do_not_encrypt_this_message : Bool
deriving DecidableEq

/-- `copy_message(msg)`: builds a fresh `EmailMultiAlternatives` from the
listed fields.  The fresh object has no `do_not_encrypt_this_message`
attribute, so the flag reads as `False` on the copy. -/
def copy_message (m : Msg) : Msg :=
  { «to» := m.«to»
    cc := m.cc
    bcc := m.bcc
    reply_to := m.reply_to
    from_email := m.from_email
    subject := m.subject
    body := m.body
    alternatives := m.alternatives
    attachments := m.attachments
    extra_headers := m.extra_headers
    connection := m.connection
    do_not_encrypt_this_message := false }

/-- `encrypt(text, addr)`: calls the engine, raises `EncryptionFailedError`
when the result is not ok, or the resulting text is empty while the input was
not; otherwise returns the resulting text.  The engine call is recorded. -/
def encrypt (engine : String → String → EncResult) (text addr : String) : EM String :=
  if ¬ (engine text addr).ok = true ∨ ((engine text addr).text = "" ∧ text ≠ "") then
    ⟨.error (.encryptionFailed addr (engine text addr).status), [(text, addr)]⟩
  else
    ⟨.ok (engine text addr).text, [(text, addr)]⟩

/-- `sign(text)`: calls the engine; when the status differs from
`'signature created'` the code executes
`raise SigningFailedError("Signing mail failed: '%s'", addr, ...)` — but
`addr` is not a name in scope in `sign`, so evaluating the arguments of the
raise statement itself raises `NameError: name 'addr' is not defined`;
the intended `SigningFailedError` is never constructed.  On success the
signature text is returned. -/
def sign (sengine : String → SignResult) (text : String) : Except PyErr String :=
  if ¬ (sengine text).status = "signature created" then
    .error (.nameError "addr")
  else
    .ok (sengine text).text

/-- Modelled from the spec: `handlers.py` is not under `src/`; per the spec a
FailurePolicy hook "returns normally (meaning handled, continue) or
raises/propagates (meaning abort)".  Each hook is therefore modelled by a
boolean: raise on failure, or return normally. -/
structure Handlers where
  msgRaises : Bool
  altRaises : Bool
  attRaises : Bool
deriving DecidableEq

/-- Modelled from the spec: the `handle_failed_message_encryption` hook either
raises (abort) or returns normally (continue). -/
def handle_failed_message_encryption (hs : Handlers) : EM Unit :=
  if hs.msgRaises then EM.raise (.handlerAbort "message") else pure ()

/-- Modelled from the spec: the `handle_failed_alternative_encryption` hook
either raises (abort) or returns normally (continue). -/
def handle_failed_alternative_encryption (hs : Handlers) : EM Unit :=
  if hs.altRaises then EM.raise (.handlerAbort "alternative") else pure ()

/-- Modelled from the spec: the `handle_failed_attachment_encryption` hook
either raises (abort) or returns normally (continue). -/
def handle_failed_attachment_encryption (hs : Handlers) : EM Unit :=
  if hs.attRaises then EM.raise (.handlerAbort "attachment") else pure ()

/-- `os.path.basename`: the part of the path after the last slash. -/
def basename (path : String) : String :=
  (path.splitOn "/").getLastD ""

/-- `encrypt_attachment(address, attachment, use_asc)`.  A bare filename is
resolved by reading the file (the filesystem is the function `fs`; `none`
models an IO error from `open`) with `mimetype = None`; a triple is unpacked.
Already-encrypted attachments (mimetype `application/gpg-encrypted`) are
returned unchanged.  Otherwise the content is encrypted; on success the
filename gets an `.asc` suffix when `use_asc` is set and the filename is not
`None`, and the triple is rebuilt with the encrypted content and the
encrypted mimetype.  On `EncryptionFailedError` the failure hook runs; if it
returns normally, the trailing `return (filename, encrypted_content, ...)`
evaluates the never-assigned local `encrypted_content`, raising
`UnboundLocalError`. -/
def encrypt_attachment (engine : String → String → EncResult)
    (fs : String → Option String) (hs : Handlers)
    (address : String) (attachment : Attachment) (use_asc : Bool) : EM Attachment :=
  let resolved : Except PyErr (Option String × String × Option String) :=
    match attachment with
    | .file path =>
        match fs path with
        | some content => .ok (some (basename path), content, none)
        | none => .error (.ioError path)
    | .tuple f c mt => .ok (f, c, mt)
  match resolved with
  | .error e => EM.raise e
  | .ok (filename, content, mimetype) =>
      if mimetype = some "application/gpg-encrypted" then
        pure attachment
      else
        catchEnc
          (do
            let ec ← encrypt engine content address
            let fn := if use_asc && filename.isSome then
                        filename.map (fun s => s ++ ".asc")
                      else filename
            pure (Attachment.tuple fn ec (some "application/gpg-encrypted")))
          (fun _ _ => do
            handle_failed_attachment_encryption hs
            EM.raise (.unboundLocal "encrypted_content"))

/-- Modelled from the spec: the `Address` model (`models.py`) is not under
`src/`; per the spec the KeyDirectory is a mapping from address to the
`use_asc` policy flag.  It is embedded as an association list (the table
rows); the underlying mapping has distinct addresses, carried as a `Nodup`
hypothesis in the theorems that need it. -/
abbrev Directory := List (String × Bool)

/-- `dict(Address.objects.filter(address__in=msg.to).values_list('address', 'use_asc'))`:
the directory rows whose address occurs in the given recipient list. -/
def key_addrs (dir : Directory) (tos : List String) : Directory :=
  dir.filter (fun p => decide (p.1 ∈ tos))

/-- The module-level collaborators of `backends.py`, passed explicitly:
the GnuPG engine, the key directory, the failure hooks, the filesystem. -/
structure Env where
  engine : String → String → EncResult
  dir : Directory
  hs : Handlers
  fs : String → Option String

/-- One pass of the per-address alternative loop body: an already-encrypted
alternative is appended unchanged; otherwise its content is encrypted and on
success the encrypted pair is appended, while on a handled failure nothing is
appended (the hook may instead raise). -/
def altStep (engine : String → String → EncResult) (hs : Handlers) (address : String)
    (acc : List (String × Option String)) (alt : String × Option String) :
    EM (List (String × Option String)) :=
  if alt.2 = some "application/gpg-encrypted" then
    pure (acc ++ [alt])
  else
    catchEnc
      (do
        let ea ← encrypt engine alt.1 address
        pure (acc ++ [(ea, some "application/gpg-encrypted")]))
      (fun _ _ => do
        handle_failed_alternative_encryption hs
        pure acc)

/-- The body of the per-address loop in `encrypt_messages` when the
suppression flag is unset: replace the body with its encryption (on a handled
failure the body is left as it was), rebuild the alternatives list with
`altStep`, and rebuild the attachments list with `encrypt_attachment`. -/
def encryptForAddress (engine : String → String → EncResult)
    (fs : String → Option String) (hs : Handlers)
    (m : Msg) (address : String) (use_asc : Bool) : EM Msg := do
  let m1 ← catchEnc
    (do
      let b ← encrypt engine m.body address
      pure { m with body := b })
    (fun _ _ => do
      handle_failed_message_encryption hs
      pure m)
  let alts ← m1.alternatives.foldlM (fun acc alt => altStep engine hs address acc alt) []
  let m2 := { m1 with alternatives := alts }
  let atts ← m2.attachments.foldlM
    (fun acc att => do
      let r ← encrypt_attachment engine fs hs address att use_asc
      pure (acc ++ [r]))
    []
  pure { m2 with attachments := atts }

/-- One iteration of the outer loop of `encrypt_messages` for one input
message, threading the two output lists.  The keyless copy is appended to the
unencrypted list when its recipient list is nonempty.  One fresh `new_msg`
addressed to all keyed recipients is shared by the whole per-address loop; the
loop appends that same object once per keyed address — to the unencrypted list
(untransformed) when the suppression flag is set, otherwise to the encrypted
list.  Since every appended entry aliases the one object, the resulting list
entries all show the object's final state, embedded as `List.replicate` of the
post-loop value. -/
def processMsg (env : Env) (acc : List Msg × List Msg) (msg : Msg) :
    EM (List Msg × List Msg) := do
  let ka := key_addrs env.dir msg.«to»
  let keys := ka.map Prod.fst
  let unencrypted_msg := { copy_message msg with «to» := msg.«to».filter (fun a => decide (a ∉ keys)) }
  let unenc1 := if unencrypted_msg.«to».isEmpty then acc.1 else acc.1 ++ [unencrypted_msg]
  let new_msg := { copy_message msg with «to» := keys }
  if msg.do_not_encrypt_this_message then
    pure (unenc1 ++ List.replicate ka.length new_msg, acc.2)
  else do
    let fin ← ka.foldlM (fun m p => encryptForAddress env.engine env.fs env.hs m p.1 p.2) new_msg
    pure (unenc1, acc.2 ++ List.replicate ka.length fin)

/-- `encrypt_messages(email_messages)`: process each message in order and
return the unencrypted list followed by the encrypted list. -/
def encrypt_messages (env : Env) (email_messages : List Msg) : EM (List Msg) := do
  let acc ← email_messages.foldlM (processMsg env) ([], [])
  pure (acc.1 ++ acc.2)

/-- `sign_messages(email_messages)`: replace each message body with its
signature (an in-place mutation of each message; the input list itself is
returned).  A failure in `sign` propagates unguarded. -/
def sign_messages (sengine : String → SignResult) (email_messages : List Msg) :
    Except PyErr (List Msg) :=
  email_messages.mapM (fun m => do
    let b ← sign sengine m.body
    pure { m with body := b })

/-- `EncryptingEmailBackendMixin.send_messages`: when `USE_GNUPG` is set the
batch is first transformed by `encrypt_messages`, otherwise passed through
unchanged; then the underlying backend's `send_messages` runs on the batch.
The Python method has no `return` statement, so the delegate's return value is
discarded and the wrapper returns `None` (embedded as `.ok none`); exceptions
from either stage propagate. -/
def encMixinSend {γ : Type} (use_gnupg : Bool) (env : Env)
    (delegate : List Msg → Except PyErr γ) (email_messages : List Msg) :
    Except PyErr (Option γ) :=
  let batch : Except PyErr (List Msg) :=
    if use_gnupg then (encrypt_messages env email_messages).res else .ok email_messages
  match batch with
  | .error e => .error e
  | .ok b =>
      match delegate b with
      | .error e => .error e
      | .ok _ => .ok none

/-- `SigningEmailBackendMixin.send_messages`: as `encMixinSend` but the
pre-send transform is `sign_messages`. -/
def signMixinSend {γ : Type} (use_gnupg : Bool) (sengine : String → SignResult)
    (delegate : List Msg → Except PyErr γ) (email_messages : List Msg) :
    Except PyErr (Option γ) :=
  let batch : Except PyErr (List Msg) :=
    if use_gnupg then sign_messages sengine email_messages else .ok email_messages
  match batch with
  | .error e => .error e
  | .ok b =>
      match delegate b with
      | .error e => .error e
      | .ok _ => .ok none

/-! ### Pure mirrors of the success path

The following functions restate, as plain recursions, what the monadic
pipeline computes when every engine call succeeds and every file read
succeeds; the equations connecting them to the pipeline are proved below. -/

/-- The text the engine produces for a given plaintext and address. -/
def encStr (engine : String → String → EncResult) (t a : String) : String :=
  (engine t a).text

/-- Success-path result of `encrypt_attachment`. -/
def attResult (engine : String → String → EncResult) (fs : String → Option String)
    (address : String) (att : Attachment) (use_asc : Bool) : Attachment :=
  match att with
  | .file path =>
      let fn : Option String := some (basename path)
      .tuple (if use_asc && fn.isSome then fn.map (fun s => s ++ ".asc") else fn)
             (encStr engine ((fs path).getD "") address)
             (some "application/gpg-encrypted")
  | .tuple f c mt =>
      if mt = some "application/gpg-encrypted" then att
      else .tuple (if use_asc && f.isSome then f.map (fun s => s ++ ".asc") else f)
                  (encStr engine c address)
                  (some "application/gpg-encrypted")

/-- Engine calls made by `encrypt_attachment` on the success path. -/
def attCalls (fs : String → Option String) (address : String) (att : Attachment) : List Call :=
  match att with
  | .file path => [((fs path).getD "", address)]
  | .tuple _ c mt => if mt = some "application/gpg-encrypted" then [] else [(c, address)]

/-- Success-path result of one alternative transform. -/
def altResult (engine : String → String → EncResult) (address : String)
    (alt : String × Option String) : String × Option String :=
  if alt.2 = some "application/gpg-encrypted" then alt
  else (encStr engine alt.1 address, some "application/gpg-encrypted")

/-- Engine calls made by one alternative transform on the success path. -/
def altCalls (address : String) (alt : String × Option String) : List Call :=
  if alt.2 = some "application/gpg-encrypted" then [] else [(alt.1, address)]

/-- Success-path result of one per-address pass over a message. -/
def stepMsg (engine : String → String → EncResult) (fs : String → Option String)
    (m : Msg) (address : String) (use_asc : Bool) : Msg :=
  { m with body := encStr engine m.body address
           alternatives := m.alternatives.map (altResult engine address)
           attachments := m.attachments.map (fun a => attResult engine fs address a use_asc) }

/-- Engine calls of one per-address pass: the body call, then one call per
not-yet-encrypted alternative, then one per not-yet-encrypted attachment. -/
def stepCalls (fs : String → Option String) (m : Msg) (address : String) : List Call :=
  (m.body, address) ::
    ((m.alternatives.map (altCalls address)).flatten ++
     (m.attachments.map (attCalls fs address)).flatten)

/-- Success-path fold of the per-address loop: the final shared message and
the engine calls, in order. -/
def foldSteps (engine : String → String → EncResult) (fs : String → Option String) :
    Msg → Directory → Msg × List Call
  | m, [] => (m, [])
  | m, p :: rest =>
      let r := foldSteps engine fs (stepMsg engine fs m p.1 p.2) rest
      (r.1, stepCalls fs m p.1 ++ r.2)

/-- The keyless copy of a message: all fields copied, recipients restricted to
the addresses without a key, original order preserved. -/
def keylessCopy (env : Env) (m : Msg) : Msg :=
  { copy_message m with
      «to» := m.«to».filter (fun a => decide (a ∉ (key_addrs env.dir m.«to»).map Prod.fst)) }

/-- The shared keyed copy of a message before any transform: all fields
copied, recipients replaced by the keyed addresses. -/
def keyedCopy (env : Env) (m : Msg) : Msg :=
  { copy_message m with «to» := (key_addrs env.dir m.«to»).map Prod.fst }

/-- The entries one input message contributes to the unencrypted output list
on the success path. -/
def unencOf (env : Env) (m : Msg) : List Msg :=
  (if (keylessCopy env m).«to».isEmpty then [] else [keylessCopy env m]) ++
  (if m.do_not_encrypt_this_message then
     List.replicate (key_addrs env.dir m.«to»).length (keyedCopy env m)
   else [])

/-- The entries one input message contributes to the encrypted output list on
the success path. -/
def encOf (env : Env) (m : Msg) : List Msg :=
  if m.do_not_encrypt_this_message then []
  else
    List.replicate (key_addrs env.dir m.«to»).length
      (foldSteps env.engine env.fs (keyedCopy env m) (key_addrs env.dir m.«to»)).1

/-- The engine calls one input message causes on the success path. -/
def callsOf (env : Env) (m : Msg) : List Call :=
  if m.do_not_encrypt_this_message then []
  else (foldSteps env.engine env.fs (keyedCopy env m) (key_addrs env.dir m.«to»)).2

/-- The engine never fails: every result is ok, and an empty ciphertext only
arises from an empty plaintext. -/
def EngineOK (engine : String → String → EncResult) : Prop :=
  ∀ t a, (engine t a).ok = true ∧ ((engine t a).text = "" → t = "")

/-- Every file read succeeds. -/
def FsTotal (fs : String → Option String) : Prop :=
  ∀ p, (fs p).isSome = true

/-! ### Equations of the `EM` monad -/

@[simp] theorem EM.pure_def (a : α) : (pure a : EM α) = ⟨.ok a, []⟩ := rfl

@[simp] theorem EM.pure_res (a : α) : (pure a : EM α).res = .ok a := rfl

@[simp] theorem EM.pure_calls (a : α) : (pure a : EM α).calls = ([] : List Call) := rfl

@[simp] theorem EM.bind_ok (a : α) (cs : List Call) (f : α → EM β) :
    (EM.mk (.ok a) cs >>= f) = ⟨(f a).res, cs ++ (f a).calls⟩ := rfl

@[simp] theorem EM.bind_error (e : PyErr) (cs : List Call) (f : α → EM β) :
    (EM.mk (.error e) cs >>= f) = ⟨.error e, cs⟩ := rfl

@[simp] theorem catchEnc_ok (a : α) (cs : List Call) (h : String → String → EM α) :
    catchEnc ⟨.ok a, cs⟩ h = ⟨.ok a, cs⟩ := rfl

@[simp] theorem catchEnc_encFail (ad s : String) (cs : List Call) (h : String → String → EM α) :
    catchEnc ⟨.error (.encryptionFailed ad s), cs⟩ h = ⟨(h ad s).res, cs ++ (h ad s).calls⟩ := rfl

/-! ### Success-path equations -/

/-- When the engine result is ok and not anomalously empty, `encrypt` returns
the engine text and records one call. -/
theorem encrypt_ok (engine : String → String → EncResult) (t a : String)
    (h1 : (engine t a).ok = true) (h2 : (engine t a).text = "" → t = "") :
    encrypt engine t a = ⟨.ok (engine t a).text, [(t, a)]⟩ := by
  have hcond : ¬ (¬ (engine t a).ok = true ∨ ((engine t a).text = "" ∧ t ≠ "")) := by
    rintro (hna | ⟨he, hne⟩)
    exacts [hna h1, hne (h2 he)]
  unfold encrypt
  rw [if_neg hcond]

/-- When the engine result is not ok, or empty for nonempty input, `encrypt`
raises `EncryptionFailedError` and still records the call. -/
theorem encrypt_fail (engine : String → String → EncResult) (t a : String)
    (h : ¬ (engine t a).ok = true ∨ ((engine t a).text = "" ∧ t ≠ "")) :
    encrypt engine t a = ⟨.error (.encryptionFailed a (engine t a).status), [(t, a)]⟩ := by
  unfold encrypt
  rw [if_pos h]

/-- On the success path, `encrypt_attachment` computes `attResult` and makes
the `attCalls` engine calls. -/
theorem encrypt_attachment_ok (engine : String → String → EncResult)
    (fs : String → Option String) (hs : Handlers) (address : String)
    (hok : EngineOK engine) (hfs : FsTotal fs) (att : Attachment) (use_asc : Bool) :
    encrypt_attachment engine fs hs address att use_asc =
      ⟨.ok (attResult engine fs address att use_asc), attCalls fs address att⟩ := by
  cases att with
  | file path =>
      obtain ⟨c, hc⟩ := Option.isSome_iff_exists.mp (hfs path)
      simp only [encrypt_attachment, hc]
      rw [encrypt_ok engine c address (hok c address).1 (hok c address).2]
      simp [attResult, attCalls, encStr, hc]
  | tuple f c mt =>
      by_cases hmt : mt = some "application/gpg-encrypted"
      · subst hmt
        simp only [encrypt_attachment, attResult, attCalls]
        simp
      · simp only [encrypt_attachment, attResult, attCalls, if_neg hmt]
        rw [encrypt_ok engine c address (hok c address).1 (hok c address).2]
        simp [encStr]

/-- On the success path, one alternative step appends `altResult` and makes
the `altCalls` engine calls. -/
theorem altStep_ok (engine : String → String → EncResult) (hs : Handlers)
    (address : String) (hok : EngineOK engine)
    (acc : List (String × Option String)) (alt : String × Option String) :
    altStep engine hs address acc alt =
      ⟨.ok (acc ++ [altResult engine address alt]), altCalls address alt⟩ := by
  by_cases hmt : alt.2 = some "application/gpg-encrypted"
  · rw [altStep, altResult, altCalls, if_pos hmt, if_pos hmt, if_pos hmt]
    rfl
  · rw [altStep, altResult, altCalls, if_neg hmt, if_neg hmt, if_neg hmt]
    rw [encrypt_ok engine alt.1 address (hok alt.1 address).1 (hok alt.1 address).2]
    simp [encStr]

/-- On the success path, the alternatives loop maps `altResult` over the list
(appended to the accumulator) and concatenates the per-alternative calls. -/
theorem altFold_ok (engine : String → String → EncResult) (hs : Handlers)
    (address : String) (hok : EngineOK engine)
    (alts : List (String × Option String)) (acc : List (String × Option String)) :
    alts.foldlM (fun a x => altStep engine hs address a x) acc =
      ⟨.ok (acc ++ alts.map (altResult engine address)),
       (alts.map (altCalls address)).flatten⟩ := by
  induction alts generalizing acc with
  | nil => simp
  | cons hd tl ih =>
      rw [List.foldlM_cons, altStep_ok engine hs address hok acc hd]
      rw [EM.bind_ok, ih (acc ++ [altResult engine address hd])]
      simp

/-- On the success path, the attachments loop maps `attResult` over the list
(appended to the accumulator) and concatenates the per-attachment calls. -/
theorem attFold_ok (engine : String → String → EncResult)
    (fs : String → Option String) (hs : Handlers) (address : String) (use_asc : Bool)
    (hok : EngineOK engine) (hfs : FsTotal fs)
    (atts : List Attachment) (acc : List Attachment) :
    (atts.foldlM
      (fun a att => do
        let r ← encrypt_attachment engine fs hs address att use_asc
        pure (a ++ [r]))
      acc) =
      ⟨.ok (acc ++ atts.map (fun att => attResult engine fs address att use_asc)),
       (atts.map (attCalls fs address)).flatten⟩ := by
  induction atts generalizing acc with
  | nil => simp
  | cons hd tl ih =>
      rw [List.foldlM_cons]
      rw [encrypt_attachment_ok engine fs hs address hok hfs hd use_asc]
      rw [EM.bind_ok]
      simp only [EM.pure_res, EM.pure_calls, EM.bind_ok]
      rw [ih (acc ++ [attResult engine fs address hd use_asc])]
      simp

/-- On the success path, one iteration of the per-address loop computes
`stepMsg` and makes the `stepCalls` engine calls. -/
theorem encryptForAddress_ok (engine : String → String → EncResult)
    (fs : String → Option String) (hs : Handlers)
    (hok : EngineOK engine) (hfs : FsTotal fs)
    (m : Msg) (address : String) (use_asc : Bool) :
    encryptForAddress engine fs hs m address use_asc =
      ⟨.ok (stepMsg engine fs m address use_asc), stepCalls fs m address⟩ := by
  rw [encryptForAddress]
  rw [encrypt_ok engine m.body address (hok m.body address).1 (hok m.body address).2]
  rw [EM.bind_ok]
  simp only [EM.pure_res, EM.pure_calls, catchEnc_ok, EM.bind_ok, List.append_nil]
  rw [altFold_ok engine hs address hok m.alternatives []]
  rw [EM.bind_ok]
  rw [attFold_ok engine fs hs address use_asc hok hfs m.attachments []]
  rw [EM.bind_ok]
  simp [stepMsg, stepCalls, encStr]

/-- On the success path, the per-address loop is `foldSteps`. -/
theorem addrFold_ok (engine : String → String → EncResult)
    (fs : String → Option String) (hs : Handlers)
    (hok : EngineOK engine) (hfs : FsTotal fs)
    (ka : Directory) (m : Msg) :
    ka.foldlM (fun m p => encryptForAddress engine fs hs m p.1 p.2) m =
      ⟨.ok (foldSteps engine fs m ka).1, (foldSteps engine fs m ka).2⟩ := by
  induction ka generalizing m with
  | nil => simp [foldSteps]
  | cons hd tl ih =>
      rw [List.foldlM_cons, encryptForAddress_ok engine fs hs hok hfs m hd.1 hd.2]
      rw [EM.bind_ok, ih (stepMsg engine fs m hd.1 hd.2)]
      simp [foldSteps]

/-- On the success path, one outer-loop iteration appends the message's
contributions to the two accumulators and makes its calls. -/
theorem processMsg_ok (env : Env) (hok : EngineOK env.engine) (hfs : FsTotal env.fs)
    (acc : List Msg × List Msg) (msg : Msg) :
    processMsg env acc msg =
      ⟨.ok (acc.1 ++ unencOf env msg, acc.2 ++ encOf env msg), callsOf env msg⟩ := by
  cases hflag : msg.do_not_encrypt_this_message with
  | true =>
      simp [processMsg, unencOf, encOf, callsOf, keylessCopy, keyedCopy, hflag]
      try (split <;> simp)
  | false =>
      simp only [processMsg, unencOf, encOf, callsOf, keylessCopy, keyedCopy, hflag]
      rw [addrFold_ok env.engine env.fs env.hs hok hfs (key_addrs env.dir msg.«to»)]
      rw [EM.bind_ok]
      simp
      try (split <;> simp)

/-- On the success path, the outer loop accumulates the per-message
contributions, in input order. -/
theorem encryptFold_ok (env : Env) (hok : EngineOK env.engine) (hfs : FsTotal env.fs)
    (msgs : List Msg) (acc : List Msg × List Msg) :
    msgs.foldlM (processMsg env) acc =
      ⟨.ok (acc.1 ++ (msgs.map (unencOf env)).flatten,
            acc.2 ++ (msgs.map (encOf env)).flatten),
       (msgs.map (callsOf env)).flatten⟩ := by
  induction msgs generalizing acc with
  | nil => simp
  | cons hd tl ih =>
      rw [List.foldlM_cons, processMsg_ok env hok hfs acc hd]
      rw [EM.bind_ok, ih (acc.1 ++ unencOf env hd, acc.2 ++ encOf env hd)]
      simp

/-- Master success-path theorem: when every engine call succeeds and every
file read succeeds, `encrypt_messages` returns all unencrypted copies (in
input-message order) followed by all encrypted copies, and makes the
per-message calls in input order. -/
theorem encrypt_messages_ok (env : Env) (hok : EngineOK env.engine)
    (hfs : FsTotal env.fs) (msgs : List Msg) :
    encrypt_messages env msgs =
      ⟨.ok ((msgs.map (unencOf env)).flatten ++ (msgs.map (encOf env)).flatten),
       (msgs.map (callsOf env)).flatten⟩ := by
  rw [encrypt_messages]
  rw [encryptFold_ok env hok hfs msgs ([], [])]
  rw [EM.bind_ok]
  simp

/-- The per-address loop never changes the recipient list of the shared
message. -/
theorem foldSteps_to (engine : String → String → EncResult)
    (fs : String → Option String) (ka : Directory) (m : Msg) :
    (foldSteps engine fs m ka).1.«to» = m.«to» := by
  induction ka generalizing m with
  | nil => rfl
  | cons hd tl ih => exact ih (stepMsg engine fs m hd.1 hd.2)

/-- The final body of the shared message is the left fold of the engine over
the keyed addresses, starting from the original body: each pass encrypts the
previous pass's output. -/
theorem foldSteps_body (engine : String → String → EncResult)
    (fs : String → Option String) (ka : Directory) (m : Msg) :
    (foldSteps engine fs m ka).1.body =
      ka.foldl (fun b p => encStr engine b p.1) m.body := by
  induction ka generalizing m with
  | nil => rfl
  | cons hd tl ih => exact ih (stepMsg engine fs m hd.1 hd.2)

/-- An address is a key of `key_addrs dir tos` exactly when it is a directory
address occurring in `tos`. -/
theorem mem_key_addrs_keys (dir : Directory) (tos : List String) (a : String) :
    a ∈ (key_addrs dir tos).map Prod.fst ↔ (a ∈ dir.map Prod.fst ∧ a ∈ tos) := by
  constructor
  · intro h
    obtain ⟨p, hp, hpa⟩ := List.mem_map.mp h
    have hf := List.mem_filter.mp hp
    refine ⟨List.mem_map.mpr ⟨p, hf.1, hpa⟩, ?_⟩
    have hm := of_decide_eq_true hf.2
    rwa [hpa] at hm
  · rintro ⟨hd, ht⟩
    obtain ⟨p, hp, hpa⟩ := List.mem_map.mp hd
    refine List.mem_map.mpr ⟨p, List.mem_filter.mpr ⟨hp, ?_⟩, hpa⟩
    rw [decide_eq_true_eq]
    rwa [hpa]

/-- Distinct directory addresses give distinct keyed-recipient addresses. -/
theorem keys_nodup (dir : Directory) (tos : List String)
    (h : (dir.map Prod.fst).Nodup) :
    ((key_addrs dir tos).map Prod.fst).Nodup :=
  List.Nodup.sublist (List.Sublist.map Prod.fst (List.filter_sublist dir)) h

/-! ### Concrete instances used by witnesses and counterexamples -/

/-- Engine that always succeeds with the constant ciphertext `"CT"`. -/
def engOKW : String → String → EncResult := fun _ _ => ⟨true, "CT", "ok"⟩

/-- Engine that always fails with status `"FAILURE"`. -/
def engFailW : String → String → EncResult := fun _ _ => ⟨false, "", "FAILURE"⟩

/-- Filesystem on which every read yields `"F"`. -/
def fsW : String → Option String := fun _ => some "F"

/-- Hooks that always return normally. -/
def hsW : Handlers := ⟨false, false, false⟩

/-- Signing engine that always reports a status other than
`'signature created'`. -/
def badSignEngine : String → SignResult := fun _ => ⟨"no pinentry", ""⟩

/-- Signing engine that always reports `'signature created'`. -/
def goodSignEngine : String → SignResult := fun t => ⟨"signature created", "SIG:" ++ t⟩

/-- A message template used by the concrete instances. -/
def msgW : Msg :=
  ⟨["a"], [], [], [], "from@x", "subj", "hello", [], [], [], none, false⟩

/-- Environment with an empty key directory. -/
def envW : Env := ⟨engOKW, [], hsW, fsW⟩

/-! ### C4 -/

/-- C4: an attachment whose media-type tag already equals
`application/gpg-encrypted` is returned unchanged by `encrypt_attachment`
with no engine call, and an alternative already carrying the tag is appended
unchanged by the alternative step with no engine call; hence re-running the
attachment transform on an already-tagged attachment is the identity. -/
theorem C4_already_encrypted_passthrough
    (engine : String → String → EncResult) (fs : String → Option String)
    (hs : Handlers) (address : String) (f : Option String) (c : String)
    (use_asc : Bool) (acc : List (String × Option String)) (alt : String) :
    encrypt_attachment engine fs hs address
        (.tuple f c (some "application/gpg-encrypted")) use_asc =
      ⟨.ok (.tuple f c (some "application/gpg-encrypted")), []⟩ ∧
    altStep engine hs address acc (alt, some "application/gpg-encrypted") =
      ⟨.ok (acc ++ [(alt, some "application/gpg-encrypted")]), []⟩ := by
  constructor
  · simp only [encrypt_attachment]
    simp
  · simp only [altStep]
    simp

/-! ### C5 -/

/-- C5: `encrypt` raises `EncryptionFailedError` exactly when the engine
reports a not-ok result or an empty ciphertext for non-empty input; otherwise
it returns the engine's ciphertext. -/
theorem C5_encrypt_error_contract (engine : String → String → EncResult)
    (text addr : String) :
    ((encrypt engine text addr).res =
        .error (.encryptionFailed addr (engine text addr).status) ↔
      (¬ (engine text addr).ok = true ∨
        ((engine text addr).text = "" ∧ text ≠ ""))) ∧
    (¬ (¬ (engine text addr).ok = true ∨
        ((engine text addr).text = "" ∧ text ≠ "")) →
      (encrypt engine text addr).res = .ok (engine text addr).text) := by
  by_cases hcond : ¬ (engine text addr).ok = true ∨
      ((engine text addr).text = "" ∧ text ≠ "")
  · rw [encrypt_fail engine text addr hcond]
    exact ⟨⟨fun _ => hcond, fun _ => rfl⟩, fun hc => absurd hcond hc⟩
  · have hA := not_or.mp hcond
    have h1 : (engine text addr).ok = true := not_not.mp hA.1
    have h2 : (engine text addr).text = "" → text = "" := by
      intro he
      by_contra hne
      exact hA.2 ⟨he, hne⟩
    rw [encrypt_ok engine text addr h1 h2]
    refine ⟨⟨fun h => ?_, fun h => absurd h hcond⟩, fun _ => rfl⟩
    exact absurd h (by simp)

/-- Concrete instance of the C5 contract: a not-ok engine result raises
`EncryptionFailedError`. -/
theorem C5_witness :
    (encrypt engFailW "m" "a").res = .error (.encryptionFailed "a" "FAILURE") :=
  (C5_encrypt_error_contract engFailW "m" "a").1.mpr (Or.inl (by decide))

/-! ### C6 -/

/-- C6: when the signing status differs from `'signature created'`, `sign`
fails — but with `NameError` on the undefined name `addr` evaluated by the
raise statement, never with the intended `SigningFailedError`; when the
status equals the marker it returns the signature. -/
theorem C6_sign_failure_raises_name_error :
    sign badSignEngine "hello" = .error (.nameError "addr") ∧
    (∀ (e : String → SignResult) (t : String),
        sign e t = .ok (e t).text ∨ sign e t = .error (.nameError "addr")) ∧
    sign goodSignEngine "hi" = .ok "SIG:hi" := by
  refine ⟨rfl, ?_, rfl⟩
  intro e t
  by_cases h : (e t).status = "signature created"
  · left
    rw [sign, if_neg (not_not_intro h)]
  · right
    rw [sign, if_pos h]

/-! ### C7 -/

/-- Resolved content of an attachment (for a bare filename, the file's
bytes). -/
def attContent (fs : String → Option String) : Attachment → Option String
  | .file p => fs p
  | .tuple _ c _ => some c

/-- Media-type tag of an attachment (a bare filename resolves to `None`). -/
def attMime : Attachment → Option String
  | .file _ => none
  | .tuple _ _ mt => mt

/-- C7: for a not-already-encrypted attachment whose encryption fails, when
the attachment failure hook returns normally, `encrypt_attachment` cannot
complete normally: the returned triple would read the never-assigned local
`encrypted_content`, so the error branch (`UnboundLocalError`) is reached
instead of any fallback value. -/
theorem C7_attachment_failure_unbound_local
    (engine : String → String → EncResult) (fs : String → Option String)
    (hs : Handlers) (address : String) (att : Attachment) (use_asc : Bool)
    (c : String)
    (hres : attContent fs att = some c)
    (hmt : attMime att ≠ some "application/gpg-encrypted")
    (hhook : hs.attRaises = false)
    (hfail : ¬ (engine c address).ok = true ∨
      ((engine c address).text = "" ∧ c ≠ "")) :
    encrypt_attachment engine fs hs address att use_asc =
      ⟨.error (.unboundLocal "encrypted_content"), [(c, address)]⟩ := by
  cases att with
  | file path =>
      have hc : fs path = some c := hres
      simp only [encrypt_attachment, hc]
      rw [encrypt_fail engine c address hfail]
      simp [handle_failed_attachment_encryption, hhook, EM.raise]
  | tuple f c0 mt =>
      have hc : c0 = c := by simpa [attContent] using hres
      subst hc
      have hmt2 : ¬ mt = some "application/gpg-encrypted" := by
        simpa [attMime] using hmt
      simp only [encrypt_attachment, if_neg hmt2]
      rw [encrypt_fail engine c0 address hfail]
      simp [handle_failed_attachment_encryption, hhook, EM.raise]

/-- Concrete instance of C7: failing to encrypt a plain tuple attachment with
a non-raising hook ends in `UnboundLocalError`, after one engine call. -/
theorem C7_witness :
    encrypt_attachment engFailW fsW hsW "a"
        (.tuple (some "report.pdf") "data" none) true =
      ⟨.error (.unboundLocal "encrypted_content"), [("data", "a")]⟩ :=
  C7_attachment_failure_unbound_local engFailW fsW hsW "a"
    (.tuple (some "report.pdf") "data" none) true "data" rfl (by decide) rfl
    (Or.inl (by decide))

/-! ### C9 -/

/-- A delegate with the return behavior of the SMTP backend: it reports how
many messages were sent. -/
def delegateCount : List Msg → Except PyErr Nat := fun l => .ok l.length

/-- C9 counterexample: with GnuPG disabled the wrapper does pass the batch to
the delegate unchanged, but it does not leave the delegate's return behavior
unchanged — the delegate returns the sent count 1, while the wrapper discards
it and returns `None`. -/
theorem C9_counterexample :
    encMixinSend false envW delegateCount [msgW] = .ok none ∧
    delegateCount [msgW] = .ok 1 ∧
    (Except.ok none : Except PyErr (Option Nat)) ≠ .ok (some 1) := by
  refine ⟨rfl, rfl, by simp⟩

/-- C9 amended: with GnuPG disabled, both backend wrappers invoke the
underlying send on the unmodified batch; and in all cases — flag enabled or
disabled — each wrapper equals the pre-send batch (the transform's result
when enabled, the input batch when disabled) bound into the underlying send,
with the send's and the transform's exceptions propagating unchanged, but
with the send's return value discarded in favour of `None`. -/
theorem C9_amended_passthrough {γ : Type} (use_gnupg : Bool) (env : Env)
    (sengine : String → SignResult) (delegate : List Msg → Except PyErr γ)
    (msgs : List Msg) :
    encMixinSend use_gnupg env delegate msgs =
      (if use_gnupg then (encrypt_messages env msgs).res else .ok msgs).bind
        (fun b => (delegate b).map (fun _ => (none : Option γ))) ∧
    signMixinSend use_gnupg sengine delegate msgs =
      (if use_gnupg then sign_messages sengine msgs else .ok msgs).bind
        (fun b => (delegate b).map (fun _ => (none : Option γ))) ∧
    encMixinSend false env delegate msgs =
      (delegate msgs).map (fun _ => (none : Option γ)) ∧
    signMixinSend false sengine delegate msgs =
      (delegate msgs).map (fun _ => (none : Option γ)) := by
  refine ⟨?_, ?_, ?_, ?_⟩
  · simp only [encMixinSend]
    cases (if use_gnupg then (encrypt_messages env msgs).res else Except.ok msgs) with
    | error e => rfl
    | ok b => cases h : delegate b <;> simp [h, Except.map, Except.bind]
  · simp only [signMixinSend]
    cases (if use_gnupg then sign_messages sengine msgs else Except.ok msgs) with
    | error e => rfl
    | ok b => cases h : delegate b <;> simp [h, Except.map, Except.bind]
  · simp only [encMixinSend]
    cases h : delegate msgs <;> simp [h, Except.map]
  · simp only [signMixinSend]
    cases h : delegate msgs <;> simp [h, Except.map]

/-! ### C1 -/

/-- Environment with two keyed addresses, used for C1. -/
def envC1 : Env := ⟨engOKW, [("b", false), ("c", false)], hsW, fsW⟩

/-- Message to two keyed addresses, suppression flag unset. -/
def mC1 : Msg := { msgW with «to» := ["b", "c"] }

/-- Same message with the suppression flag set. -/
def mC1f : Msg := { mC1 with do_not_encrypt_this_message := true }

/-- Final state of the shared encrypted copy of `mC1`. -/
def fmC1 : Msg := { mC1 with body := "CT" }

/-- C1 counterexample.  First input: both recipients keyed, flag unset — the
output batch holds the shared encrypted copy twice (once per keyed address),
not exactly once.  Second input: both recipients keyed, flag set — the batch
holds two unencrypted copies (body untouched) and no encrypted copy at all. -/
theorem C1_counterexample :
    ((encrypt_messages envC1 [mC1]).res = .ok [fmC1, fmC1] ∧
      fmC1.«to» = ["b", "c"] ∧ fmC1.body = "CT" ∧ mC1.body = "hello") ∧
    ((encrypt_messages envC1 [mC1f]).res = .ok [mC1, mC1] ∧
      mC1.body = mC1f.body) := by
  exact ⟨⟨rfl, rfl, rfl, rfl⟩, ⟨rfl, rfl⟩⟩

/-- C1 amended: for a message with the suppression flag unset whose every
recipient has a key, no unencrypted copy is produced, and the encrypted
output consists of the one shared encrypted message appended once per keyed
address (identical entries), whose recipient list is the full keyed set. -/
theorem C1_amended (env : Env) (msgs : List Msg) (m : Msg)
    (hok : EngineOK env.engine) (hfs : FsTotal env.fs) (hmem : m ∈ msgs)
    (hflag : m.do_not_encrypt_this_message = false)
    (hall : ∀ a ∈ m.«to», a ∈ env.dir.map Prod.fst) (hne : m.«to» ≠ []) :
    unencOf env m = [] ∧
    encOf env m =
      List.replicate (key_addrs env.dir m.«to»).length
        (foldSteps env.engine env.fs (keyedCopy env m) (key_addrs env.dir m.«to»)).1 ∧
    (foldSteps env.engine env.fs (keyedCopy env m) (key_addrs env.dir m.«to»)).1.«to» =
      (key_addrs env.dir m.«to»).map Prod.fst ∧
    (∀ a, a ∈ (key_addrs env.dir m.«to»).map Prod.fst ↔
        (a ∈ env.dir.map Prod.fst ∧ a ∈ m.«to»)) ∧
    encrypt_messages env msgs =
      ⟨.ok ((msgs.map (unencOf env)).flatten ++ (msgs.map (encOf env)).flatten),
       (msgs.map (callsOf env)).flatten⟩ := by
  refine ⟨?_, by simp [encOf, hflag], foldSteps_to env.engine env.fs _ _,
    fun a => mem_key_addrs_keys env.dir m.«to» a,
    encrypt_messages_ok env hok hfs msgs⟩
  have hfilter : m.«to».filter
      (fun a => decide (a ∉ (key_addrs env.dir m.«to»).map Prod.fst)) = [] := by
    rw [List.filter_eq_nil_iff]
    intro a ha
    simp only [decide_eq_true_eq, not_not]
    exact (mem_key_addrs_keys env.dir m.«to» a).mpr ⟨hall a ha, ha⟩
  have hto : (keylessCopy env m).«to» = [] := hfilter
  simp [unencOf, hflag, hto]

/-- Concrete instance of the amended C1 at a two-keyed-recipient message. -/
theorem C1_witness :
    unencOf envC1 mC1 = [] ∧
    encOf envC1 mC1 =
      List.replicate (key_addrs envC1.dir mC1.«to»).length
        (foldSteps envC1.engine envC1.fs (keyedCopy envC1 mC1)
          (key_addrs envC1.dir mC1.«to»)).1 ∧
    (foldSteps envC1.engine envC1.fs (keyedCopy envC1 mC1)
        (key_addrs envC1.dir mC1.«to»)).1.«to» =
      (key_addrs envC1.dir mC1.«to»).map Prod.fst ∧
    (∀ a, a ∈ (key_addrs envC1.dir mC1.«to»).map Prod.fst ↔
        (a ∈ envC1.dir.map Prod.fst ∧ a ∈ mC1.«to»)) ∧
    encrypt_messages envC1 [mC1] =
      ⟨.ok (([mC1].map (unencOf envC1)).flatten ++ ([mC1].map (encOf envC1)).flatten),
       ([mC1].map (callsOf envC1)).flatten⟩ :=
  C1_amended envC1 [mC1] mC1 (fun t a => ⟨rfl, fun h => absurd (show ("CT" : String) = "" from h) (by decide)⟩)
    (fun p => rfl) (List.mem_singleton.mpr rfl) rfl (by decide) (by decide)

/-! ### C2 -/

/-- C2: with the suppression flag unset and at least two keyed recipients,
the keyed partition is one shared message replicated once per keyed address;
its body is the left fold of the engine over the keyed addresses starting
from the original body — i.e. each per-address call encrypts the
previously-overwritten content, and the final body is the last processed
address applied to the previous result, not one independent body per
recipient. -/
theorem C2_last_writer_wins (env : Env) (msgs : List Msg) (m : Msg)
    (hok : EngineOK env.engine) (hfs : FsTotal env.fs) (hmem : m ∈ msgs)
    (hflag : m.do_not_encrypt_this_message = false)
    (htwo : 2 ≤ (key_addrs env.dir m.«to»).length) :
    encOf env m =
      List.replicate (key_addrs env.dir m.«to»).length
        (foldSteps env.engine env.fs (keyedCopy env m) (key_addrs env.dir m.«to»)).1 ∧
    (foldSteps env.engine env.fs (keyedCopy env m) (key_addrs env.dir m.«to»)).1.body =
      (key_addrs env.dir m.«to»).foldl (fun b p => encStr env.engine b p.1) m.body ∧
    (∀ l p, key_addrs env.dir m.«to» = l ++ [p] →
      (foldSteps env.engine env.fs (keyedCopy env m) (key_addrs env.dir m.«to»)).1.body =
        encStr env.engine (l.foldl (fun b q => encStr env.engine b q.1) m.body) p.1) ∧
    encrypt_messages env msgs =
      ⟨.ok ((msgs.map (unencOf env)).flatten ++ (msgs.map (encOf env)).flatten),
       (msgs.map (callsOf env)).flatten⟩ := by
  have hbody : (foldSteps env.engine env.fs (keyedCopy env m)
      (key_addrs env.dir m.«to»)).1.body =
      (key_addrs env.dir m.«to»).foldl (fun b p => encStr env.engine b p.1) m.body :=
    foldSteps_body env.engine env.fs _ _
  refine ⟨by simp [encOf, hflag], hbody, ?_, encrypt_messages_ok env hok hfs msgs⟩
  intro l p hl
  rw [hbody, hl, List.foldl_append]
  rfl

/-- Concrete instance of C2 at a two-keyed-recipient message: the final body
is the nested double encryption of the original body. -/
theorem C2_witness :
    encOf envC1 mC1 =
      List.replicate (key_addrs envC1.dir mC1.«to»).length
        (foldSteps envC1.engine envC1.fs (keyedCopy envC1 mC1)
          (key_addrs envC1.dir mC1.«to»)).1 ∧
    (foldSteps envC1.engine envC1.fs (keyedCopy envC1 mC1)
        (key_addrs envC1.dir mC1.«to»)).1.body =
      (key_addrs envC1.dir mC1.«to»).foldl
        (fun b p => encStr envC1.engine b p.1) mC1.body ∧
    (∀ l p, key_addrs envC1.dir mC1.«to» = l ++ [p] →
      (foldSteps envC1.engine envC1.fs (keyedCopy envC1 mC1)
          (key_addrs envC1.dir mC1.«to»)).1.body =
        encStr envC1.engine
          (l.foldl (fun b q => encStr envC1.engine b q.1) mC1.body) p.1) ∧
    encrypt_messages envC1 [mC1] =
      ⟨.ok (([mC1].map (unencOf envC1)).flatten ++ ([mC1].map (encOf envC1)).flatten),
       ([mC1].map (callsOf envC1)).flatten⟩ :=
  C2_last_writer_wins envC1 [mC1] mC1
    (fun t a => ⟨rfl, fun h => absurd (show ("CT" : String) = "" from h) (by decide)⟩) (fun p => rfl)
    (List.mem_singleton.mpr rfl) rfl (by decide)

/-! ### C3 -/

/-- Environment with one keyed address `"b"`, used for C3. -/
def envC3 : Env := ⟨engOKW, [("b", true)], hsW, fsW⟩

/-- Mixed message (keyless `"a"`, keyed `"b"`) with the suppression flag
set. -/
def mC3f : Msg := { msgW with «to» := ["a", "b"], do_not_encrypt_this_message := true }

/-- The keyless copy for C3's inputs. -/
def uC3 : Msg := { msgW with «to» := ["a"] }

/-- The untransformed keyed copy of `mC3f`. -/
def kmC3 : Msg := { msgW with «to» := ["b"] }

/-- Mixed message whose keyed address occurs twice. -/
def mC3d : Msg := { msgW with «to» := ["a", "b", "b"] }

/-- The encrypted copy for `mC3d`. -/
def fmC3d : Msg := { msgW with «to» := ["b"], body := "CT" }

/-- C3 counterexample.  First input: a mixed message with the suppression
flag set yields no encrypted copy at all (the keyed copy is routed
unencrypted with its body untouched).  Second input: a mixed recipient list
with a duplicated keyed address — the union of the two copies' recipient
lists drops one occurrence, so it does not equal the original list. -/
theorem C3_counterexample :
    (encOf envC3 mC3f = [] ∧
      (encrypt_messages envC3 [mC3f]).res = .ok [uC3, kmC3] ∧
      kmC3.«to» = ["b"] ∧ kmC3.body = mC3f.body) ∧
    ((encrypt_messages envC3 [mC3d]).res = .ok [uC3, fmC3d] ∧
      uC3.«to» ++ fmC3d.«to» = ["a", "b"] ∧ mC3d.«to» = ["a", "b", "b"] ∧
      uC3.«to» ++ fmC3d.«to» ≠ mC3d.«to») := by
  refine ⟨⟨rfl, rfl, rfl, rfl⟩, ⟨rfl, rfl, rfl, by decide⟩⟩

/-- C3 amended: for a message with the suppression flag unset, a
duplicate-free recipient list and a duplicate-free key directory, whose
recipients mix keyless and keyed addresses, the pipeline produces the
unencrypted copy addressed to exactly the keyless addresses in original
order, and the shared encrypted copy (appended once per keyed address)
addressed to exactly the keyed addresses; the two recipient lists together
cover the original list exactly, with no duplicates or omissions. -/
theorem C3_amended (env : Env) (msgs : List Msg) (m : Msg)
    (hok : EngineOK env.engine) (hfs : FsTotal env.fs) (hmem : m ∈ msgs)
    (hflag : m.do_not_encrypt_this_message = false)
    (hnodup : m.«to».Nodup) (hdir : (env.dir.map Prod.fst).Nodup)
    (hkeyless : (keylessCopy env m).«to» ≠ [])
    (hkeyed : key_addrs env.dir m.«to» ≠ []) :
    unencOf env m = [keylessCopy env m] ∧
    (keylessCopy env m).«to» =
      m.«to».filter (fun a => decide (a ∉ (key_addrs env.dir m.«to»).map Prod.fst)) ∧
    encOf env m =
      List.replicate (key_addrs env.dir m.«to»).length
        (foldSteps env.engine env.fs (keyedCopy env m) (key_addrs env.dir m.«to»)).1 ∧
    encOf env m ≠ [] ∧
    (foldSteps env.engine env.fs (keyedCopy env m) (key_addrs env.dir m.«to»)).1.«to» =
      (key_addrs env.dir m.«to»).map Prod.fst ∧
    (∀ a, a ∈ (keylessCopy env m).«to» ++ (key_addrs env.dir m.«to»).map Prod.fst ↔
        a ∈ m.«to») ∧
    ((keylessCopy env m).«to» ++ (key_addrs env.dir m.«to»).map Prod.fst).Nodup ∧
    encrypt_messages env msgs =
      ⟨.ok ((msgs.map (unencOf env)).flatten ++ (msgs.map (encOf env)).flatten),
       (msgs.map (callsOf env)).flatten⟩ := by
  have hkeys := keys_nodup env.dir m.«to» hdir
  refine ⟨?_, rfl, by simp [encOf, hflag], ?_, foldSteps_to env.engine env.fs _ _,
    ?_, ?_, encrypt_messages_ok env hok hfs msgs⟩
  · have hne : ¬ (keylessCopy env m).«to».isEmpty = true := by
      rw [List.isEmpty_iff]
      exact hkeyless
    simp [unencOf, hflag, hne]
  · simp only [encOf, hflag]
    rw [if_neg Bool.false_ne_true]
    intro hcontra
    have hlen := congrArg List.length hcontra
    rw [List.length_replicate, List.length_nil] at hlen
    exact Nat.pos_iff_ne_zero.mp (List.length_pos.mpr hkeyed) hlen
  · intro a
    constructor
    · intro h
      rcases List.mem_append.mp h with h1 | h2
      · exact (List.mem_filter.mp h1).1
      · exact ((mem_key_addrs_keys env.dir m.«to» a).mp h2).2
    · intro h
      by_cases hk : a ∈ (key_addrs env.dir m.«to»).map Prod.fst
      · exact List.mem_append.mpr (Or.inr hk)
      · exact List.mem_append.mpr (Or.inl (List.mem_filter.mpr ⟨h, by simpa using hk⟩))
  · refine List.Nodup.append (hnodup.filter _) hkeys ?_
    intro a ha hb
    exact of_decide_eq_true (List.mem_filter.mp ha).2 hb

/-- Mixed message with the suppression flag unset, for the C3 witness. -/
def mC3 : Msg := { msgW with «to» := ["a", "b"] }

/-- Concrete instance of the amended C3 at a mixed two-recipient message. -/
theorem C3_witness :
    unencOf envC3 mC3 = [keylessCopy envC3 mC3] ∧
    (keylessCopy envC3 mC3).«to» =
      mC3.«to».filter (fun a => decide (a ∉ (key_addrs envC3.dir mC3.«to»).map Prod.fst)) ∧
    encOf envC3 mC3 =
      List.replicate (key_addrs envC3.dir mC3.«to»).length
        (foldSteps envC3.engine envC3.fs (keyedCopy envC3 mC3)
          (key_addrs envC3.dir mC3.«to»)).1 ∧
    encOf envC3 mC3 ≠ [] ∧
    (foldSteps envC3.engine envC3.fs (keyedCopy envC3 mC3)
        (key_addrs envC3.dir mC3.«to»)).1.«to» =
      (key_addrs envC3.dir mC3.«to»).map Prod.fst ∧
    (∀ a, a ∈ (keylessCopy envC3 mC3).«to» ++
        (key_addrs envC3.dir mC3.«to»).map Prod.fst ↔ a ∈ mC3.«to») ∧
    ((keylessCopy envC3 mC3).«to» ++ (key_addrs envC3.dir mC3.«to»).map Prod.fst).Nodup ∧
    encrypt_messages envC3 [mC3] =
      ⟨.ok (([mC3].map (unencOf envC3)).flatten ++ ([mC3].map (encOf envC3)).flatten),
       ([mC3].map (callsOf envC3)).flatten⟩ :=
  C3_amended envC3 [mC3] mC3 (fun t a => ⟨rfl, fun h => absurd (show ("CT" : String) = "" from h) (by decide)⟩)
    (fun p => rfl) (List.mem_singleton.mpr rfl) rfl (by decide) (by decide)
    (by decide) (by decide)

/-! ### C8 -/

/-- C8: a message carrying the suppression flag with at least one keyed
recipient contributes nothing to the encrypted output; its shared keyed copy
is routed (once per keyed address) to the unencrypted output with body
untouched, and no CryptoEngine encrypt call occurs for that message. -/
theorem C8_suppression_flag (env : Env) (msgs : List Msg) (m : Msg)
    (hok : EngineOK env.engine) (hfs : FsTotal env.fs) (hmem : m ∈ msgs)
    (hflag : m.do_not_encrypt_this_message = true)
    (hkeyed : key_addrs env.dir m.«to» ≠ []) :
    encOf env m = [] ∧
    unencOf env m =
      (if (keylessCopy env m).«to».isEmpty then [] else [keylessCopy env m]) ++
        List.replicate (key_addrs env.dir m.«to»).length (keyedCopy env m) ∧
    keyedCopy env m ∈ unencOf env m ∧
    (keyedCopy env m).body = m.body ∧
    (keyedCopy env m).«to» = (key_addrs env.dir m.«to»).map Prod.fst ∧
    callsOf env m = [] ∧
    encrypt_messages env msgs =
      ⟨.ok ((msgs.map (unencOf env)).flatten ++ (msgs.map (encOf env)).flatten),
       (msgs.map (callsOf env)).flatten⟩ := by
  have hun : unencOf env m =
      (if (keylessCopy env m).«to».isEmpty then [] else [keylessCopy env m]) ++
        List.replicate (key_addrs env.dir m.«to»).length (keyedCopy env m) := by
    simp [unencOf, hflag]
  refine ⟨by simp [encOf, hflag], hun, ?_, rfl, rfl, by simp [callsOf, hflag],
    encrypt_messages_ok env hok hfs msgs⟩
  rw [hun]
  refine List.mem_append.mpr (Or.inr ?_)
  rw [List.mem_replicate]
  exact ⟨Nat.pos_iff_ne_zero.mp (List.length_pos.mpr hkeyed), rfl⟩

/-- Environment with one keyed address, used for the C8 witness. -/
def envC8 : Env := ⟨engOKW, [("b", false)], hsW, fsW⟩

/-- Flagged mixed message for the C8 witness. -/
def mC8 : Msg := { msgW with «to» := ["a", "b"], do_not_encrypt_this_message := true }

/-- Concrete instance of C8 at a flagged mixed message. -/
theorem C8_witness :
    encOf envC8 mC8 = [] ∧
    unencOf envC8 mC8 =
      (if (keylessCopy envC8 mC8).«to».isEmpty then [] else [keylessCopy envC8 mC8]) ++
        List.replicate (key_addrs envC8.dir mC8.«to»).length (keyedCopy envC8 mC8) ∧
    keyedCopy envC8 mC8 ∈ unencOf envC8 mC8 ∧
    (keyedCopy envC8 mC8).body = mC8.body ∧
    (keyedCopy envC8 mC8).«to» = (key_addrs envC8.dir mC8.«to»).map Prod.fst ∧
    callsOf envC8 mC8 = [] ∧
    encrypt_messages envC8 [mC8] =
      ⟨.ok (([mC8].map (unencOf envC8)).flatten ++ ([mC8].map (encOf envC8)).flatten),
       ([mC8].map (callsOf envC8)).flatten⟩ :=
  C8_suppression_flag envC8 [mC8] mC8
    (fun t a => ⟨rfl, fun h => absurd (show ("CT" : String) = "" from h) (by decide)⟩) (fun p => rfl)
    (List.mem_singleton.mpr rfl) rfl (by decide)

/-! ### C10 -/

/-- C10: for every input batch (on the success path), the returned list is
all unencrypted copies first — accumulated in input-message order — followed
by all encrypted copies, whatever the interleaving of keyless and keyed
recipients across the inputs. -/
theorem C10_unencrypted_before_encrypted (env : Env) (msgs : List Msg)
    (hok : EngineOK env.engine) (hfs : FsTotal env.fs) :
    encrypt_messages env msgs =
      ⟨.ok ((msgs.map (unencOf env)).flatten ++ (msgs.map (encOf env)).flatten),
       (msgs.map (callsOf env)).flatten⟩ :=
  encrypt_messages_ok env hok hfs msgs

/-- Concrete instance of C10 on a two-message batch interleaving keyless and
keyed recipients. -/
theorem C10_witness :
    encrypt_messages envC3 [mC3, mC3f] =
      ⟨.ok (([mC3, mC3f].map (unencOf envC3)).flatten ++
            ([mC3, mC3f].map (encOf envC3)).flatten),
       ([mC3, mC3f].map (callsOf envC3)).flatten⟩ :=
  C10_unencrypted_before_encrypted envC3 [mC3, mC3f]
    (fun t a => ⟨rfl, fun h => absurd (show ("CT" : String) = "" from h) (by decide)⟩) (fun p => rfl)

end SecureMail
